import Mathlib

/-!
Shallow embedding of the LRU cache in `src/main.rs`.

Modelling conventions:
* `Vec<u8>` is `List Nat`; entries stand for `u8` values, and whenever u8
  semantics matter a value is read as `b % 256`.
* Rust `String` is its UTF-8 byte buffer: `String::into_bytes` is the identity
  on the representation and `String::from_utf8` is validation, so the model is
  the subtype of byte lists satisfying the UTF-8 validation automaton.
* `i32` is the subtype of `Int` in `[-2^31, 2^31)`; `to_be_bytes` /
  `from_be_bytes` work through the two's-complement value `i % 2^32`.
* `HashMap<String, MyBytes>` is an association list; only `get` / `insert` /
  `remove` are used by the source, and `insert` replaces the entry of an
  existing key, so iteration order is irrelevant.
* A Rust panic (`unwrap` on a failed conversion, `Vec::remove` out of bounds,
  usize underflow) is `none` in an `Option`-valued result.  `set` takes
  `&mut self`, so the state as mutated up to the panic point is returned
  alongside the `none`.
-/

abbrev MyBytes := List Nat

/-- CacheError from the source: one variant, `ConversionFailed(String)`. -/
inductive CacheError where
  | ConversionFailed (msg : String)
deriving DecidableEq

/-- Rust `Result<α, CacheError>`, the return shape of the codec traits. -/
inductive Result (α : Type) where
  | ok (val : α)
  | err (e : CacheError)
deriving DecidableEq

/-- HashMap::get on the association-list model of the store. -/
def mapGet (m : List (String × MyBytes)) (k : String) : Option MyBytes :=
  match m with
  | [] => none
  | (k', v) :: rest => if k' = k then some v else mapGet rest k

/-- HashMap::insert: replace the entry of an existing key, else append. -/
def mapInsert (m : List (String × MyBytes)) (k : String) (v : MyBytes) :
    List (String × MyBytes) :=
  match m with
  | [] => [(k, v)]
  | (k', v') :: rest => if k' = k then (k, v) :: rest else (k', v') :: mapInsert rest k v

/-- HashMap::remove: drop the (first) entry of the key, if any. -/
def mapRemove (m : List (String × MyBytes)) (k : String) : List (String × MyBytes) :=
  match m with
  | [] => []
  | (k', v') :: rest => if k' = k then rest else (k', v') :: mapRemove rest k

/-- Keys of the store, in entry order. -/
def mapKeys (m : List (String × MyBytes)) : List String := m.map Prod.fst

/-- UTF-8 validation over byte lists, as performed by `String::from_utf8`:
one to four bytes per scalar value, with the usual continuation-byte ranges
and the overlong/surrogate restrictions on the second byte. -/
def validUtf8 : List Nat → Bool
  | [] => true
  | b :: rest =>
    if b ≤ 0x7F then
      validUtf8 rest
    else if 0xC2 ≤ b ∧ b ≤ 0xDF then
      match rest with
      | c1 :: r => decide (0x80 ≤ c1 ∧ c1 ≤ 0xBF) && validUtf8 r
      | [] => false
    else if b = 0xE0 then
      match rest with
      | c1 :: c2 :: r =>
        decide (0xA0 ≤ c1 ∧ c1 ≤ 0xBF) && decide (0x80 ≤ c2 ∧ c2 ≤ 0xBF) && validUtf8 r
      | _ => false
    else if (0xE1 ≤ b ∧ b ≤ 0xEC) ∨ b = 0xEE ∨ b = 0xEF then
      match rest with
      | c1 :: c2 :: r =>
        decide (0x80 ≤ c1 ∧ c1 ≤ 0xBF) && decide (0x80 ≤ c2 ∧ c2 ≤ 0xBF) && validUtf8 r
      | _ => false
    else if b = 0xED then
      match rest with
      | c1 :: c2 :: r =>
        decide (0x80 ≤ c1 ∧ c1 ≤ 0x9F) && decide (0x80 ≤ c2 ∧ c2 ≤ 0xBF) && validUtf8 r
      | _ => false
    else if b = 0xF0 then
      match rest with
      | c1 :: c2 :: c3 :: r =>
        decide (0x90 ≤ c1 ∧ c1 ≤ 0xBF) && decide (0x80 ≤ c2 ∧ c2 ≤ 0xBF) &&
          decide (0x80 ≤ c3 ∧ c3 ≤ 0xBF) && validUtf8 r
      | _ => false
    else if 0xF1 ≤ b ∧ b ≤ 0xF3 then
      match rest with
      | c1 :: c2 :: c3 :: r =>
        decide (0x80 ≤ c1 ∧ c1 ≤ 0xBF) && decide (0x80 ≤ c2 ∧ c2 ≤ 0xBF) &&
          decide (0x80 ≤ c3 ∧ c3 ≤ 0xBF) && validUtf8 r
      | _ => false
    else if b = 0xF4 then
      match rest with
      | c1 :: c2 :: c3 :: r =>
        decide (0x80 ≤ c1 ∧ c1 ≤ 0x8F) && decide (0x80 ≤ c2 ∧ c2 ≤ 0xBF) &&
          decide (0x80 ≤ c3 ∧ c3 ≤ 0xBF) && validUtf8 r
      | _ => false
    else
      false

/-- Rust `String`: a byte buffer that is valid UTF-8. -/
abbrev RustString := { bs : List Nat // validUtf8 bs = true }

/-- impl TryIntoBytes for String: `self.into_bytes()` is the identity on the
underlying buffer, always `Ok`. -/
def RustString.try_into_bytes (s : RustString) : Result MyBytes :=
  Result.ok s.val

/-- impl TryFromBytes for String: `String::from_utf8`, mapping the error to
`ConversionFailed`. -/
def RustString.try_from_bytes (bs : List Nat) : Result RustString :=
  if h : validUtf8 bs = true then Result.ok ⟨bs, h⟩
  else Result.err (CacheError.ConversionFailed "invalid utf-8 sequence")

/-- Rust `i32`: integers in `[-2^31, 2^31)`. -/
abbrev I32 := { i : Int // -2147483648 ≤ i ∧ i < 2147483648 }

/-- Model of `i32::to_be_bytes`: big-endian bytes of the two's-complement value. -/
def i32ToBeBytes (i : Int) : List Nat :=
  [(i % 4294967296).toNat / 16777216 % 256,
   (i % 4294967296).toNat / 65536 % 256,
   (i % 4294967296).toNat / 256 % 256,
   (i % 4294967296).toNat % 256]

/-- Model of `i32::from_be_bytes` on exactly four bytes: reassemble the unsigned value
and reinterpret it as two's complement. -/
def i32OfBits (n : Nat) (h : n < 4294967296) : I32 :=
  if hlt : n < 2147483648 then ⟨(n : Int), by omega⟩
  else ⟨(n : Int) - 4294967296, by omega⟩

/-- impl TryIntoBytes for i32: `self.to_be_bytes().to_vec()`, always `Ok`. -/
def RustI32.try_into_bytes (i : I32) : Result MyBytes :=
  Result.ok (i32ToBeBytes i.val)

/-- impl TryFromBytes for i32: `i32::from_be_bytes(bytes.try_into().unwrap())`.
The `try_into` to `[u8; 4]` fails unless the vector has exactly four bytes, and
the source unwraps that result, so any other length is a panic (`none`). -/
def RustI32.try_from_bytes (bs : List Nat) : Option (Result I32) :=
  match bs with
  | [b0, b1, b2, b3] =>
    some (Result.ok (i32OfBits
      (b0 % 256 * 16777216 + b1 % 256 * 65536 + b2 % 256 * 256 + b3 % 256)
      (by omega)))
  | _ => none

/-- Person from the source: a name and an age. -/
structure Person where
  name : RustString
  age : I32
deriving DecidableEq

/-- impl TryIntoBytes for Person: name bytes then age bytes, concatenated. -/
def Person.try_into_bytes (p : Person) : Result MyBytes :=
  match RustString.try_into_bytes p.name with
  | Result.err e => Result.err e
  | Result.ok nameBytes =>
    match RustI32.try_into_bytes p.age with
    | Result.err e => Result.err e
    | Result.ok ageBytes => Result.ok (nameBytes ++ ageBytes)

/-- impl TryFromBytes for Person: the name is decoded from
`bytes[0..bytes.len() - 1]` and the age from `bytes[bytes.len() - 1..]`, i.e.
only the final byte.  On the empty vector `bytes.len() - 1` underflows `usize`,
a panic; otherwise the age decode receives a single byte. -/
def Person.try_from_bytes (bs : List Nat) : Option (Result Person) :=
  match bs with
  | [] => none
  | _ =>
    match RustString.try_from_bytes (bs.take (bs.length - 1)) with
    | Result.err e => some (Result.err e)
    | Result.ok name =>
      match RustI32.try_from_bytes (bs.drop (bs.length - 1)) with
      | none => none
      | some (Result.err e) => some (Result.err e)
      | some (Result.ok age) => some (Result.ok { name := name, age := age })

/-- The cache of the source: capacity, byte store, recency list
(least-recent first, most-recent last). -/
structure LruCache where
  capacity : Nat
  map : List (String × MyBytes)
  list : List String
deriving DecidableEq

/-- LruCache::new. -/
def LruCache.new (max_size : Nat) : LruCache :=
  { capacity := max_size, map := [], list := [] }

/-- LruCache::refresh: find the position of the key in the recency list; if
found, remove it there and push it to the most-recent end.  Removing at the
position of the first occurrence is `List.erase`. -/
def LruCache.refresh (c : LruCache) (key : String) : LruCache :=
  if key ∈ c.list then { c with list := c.list.erase key ++ [key] } else c

/-- LruCache::get: clone the stored bytes (early `None` return if the key is
absent), refresh the recency list, and return the bytes.  The source's generic
signature notwithstanding, the returned value is the stored byte vector: no
decode happens inside `get`. -/
def LruCache.get (c : LruCache) (key : String) : Option MyBytes × LruCache :=
  match mapGet c.map key with
  | none => (none, c)
  | some value => (some value, c.refresh key)

/-- LruCache::set, generic over the outcome of encoding the value.  Order of
effects, as in the source: if the list is at capacity, `remove(0)` (a panic on
the empty list) and drop that key from the store; push the new key; evaluate
the encoding and unwrap it (a panic on an encoding error, after the previous
mutations) and insert the bytes.  The second component is the state of the
`&mut self` cache when the call returns or panics. -/
def LruCache.setWithEnc (c : LruCache) (key : String) (enc : Result MyBytes) :
    Option Unit × LruCache :=
  if c.list.length = c.capacity then
    match c.list with
    | [] => (none, c)
    | oldest :: rest =>
      match enc with
      | Result.err _ =>
        (none, { c with map := mapRemove c.map oldest, list := rest ++ [key] })
      | Result.ok bytes =>
        (some (), { c with map := mapInsert (mapRemove c.map oldest) key bytes,
                           list := rest ++ [key] })
  else
    match enc with
    | Result.err _ => (none, { c with list := c.list ++ [key] })
    | Result.ok bytes =>
      (some (), { c with map := mapInsert c.map key bytes, list := c.list ++ [key] })

/-- LruCache::set at a String value. -/
def LruCache.setString (c : LruCache) (key : String) (s : RustString) :
    Option Unit × LruCache :=
  c.setWithEnc key (RustString.try_into_bytes s)

/-- An operation on the cache: a `set` (with the already-encoded value bytes;
every implemented encoder is infallible) or a `get`. -/
inductive CacheOp where
  | set (key : String) (value : MyBytes)
  | get (key : String)

/-- Run a list of operations; `none` if some `set` panics. -/
def runOps (c : LruCache) : List CacheOp → Option LruCache
  | [] => some c
  | CacheOp.set k v :: rest =>
    match c.setWithEnc k (Result.ok v) with
    | (some _, c') => runOps c' rest
    | (none, _) => none
  | CacheOp.get k :: rest => runOps (c.get k).2 rest

/-- Run a list of `set` operations only. -/
def setAll (c : LruCache) : List (String × MyBytes) → Option LruCache
  | [] => some c
  | (k, v) :: rest =>
    match c.setWithEnc k (Result.ok v) with
    | (some _, c') => setAll c' rest
    | (none, _) => none

/-- Pair each key with its value under `vals`. -/
def pairsOf (ks : List String) (vals : String → MyBytes) : List (String × MyBytes) :=
  ks.map (fun k => (k, vals k))

/-- Whether `k` is a live key after running the given `set`s on a fresh cache
of capacity `cap` (and the run did not panic). -/
def keyPresentAfter (cap : Nat) (ps : List (String × MyBytes)) (k : String) : Bool :=
  match setAll (LruCache.new cap) ps with
  | some c => (mapGet c.map k).isSome
  | none => false

/-- The store/list synchronization invariant together with the capacity bound:
store keys are distinct, every store key is tracked in the recency list, and
the list length is bounded by the capacity. -/
def CacheInv (c : LruCache) : Prop :=
  (mapKeys c.map).Nodup ∧ (∀ k, k ∈ mapKeys c.map → k ∈ c.list) ∧
    c.list.length ≤ c.capacity

/-! ### Concrete values for the test scenarios -/

/-- ASCII bytes of "value1". -/
def value1 : MyBytes := [118, 97, 108, 117, 101, 49]

/-- ASCII bytes of "value2". -/
def value2 : MyBytes := [118, 97, 108, 117, 101, 50]

/-- ASCII bytes of "value3". -/
def value3 : MyBytes := [118, 97, 108, 117, 101, 51]

/-- The Rust string "value1". -/
def strValue1 : RustString := ⟨value1, rfl⟩

/-- The Rust string "value2". -/
def strValue2 : RustString := ⟨value2, rfl⟩

/-- The Rust string "value3". -/
def strValue3 : RustString := ⟨value3, rfl⟩

/-- Person { name: "John" (bytes 74 111 104 110), age: 20 }. -/
def john : Person :=
  { name := ⟨[74, 111, 104, 110], rfl⟩, age := ⟨20, by omega, by omega⟩ }

/-- The capacity-2 string scenario of the spec and of the source's
`it_works_for_strings` test, step by step. -/
def scen1 : Option Unit × LruCache := (LruCache.new 2).setString "key1" strValue1

/-- Scenario step: set "key2". -/
def scen2 : Option Unit × LruCache := scen1.2.setString "key2" strValue2

/-- Scenario step: get "key2". -/
def scenG2 : Option MyBytes × LruCache := scen2.2.get "key2"

/-- Scenario step: get "key1". -/
def scenG1 : Option MyBytes × LruCache := scenG2.2.get "key1"

/-- Scenario step: set "key3", which must evict. -/
def scen3 : Option Unit × LruCache := scenG1.2.setString "key3" strValue3

/-- Scenario step: final get "key1". -/
def scenF1 : Option MyBytes × LruCache := scen3.2.get "key1"

/-- Scenario step: final get "key2". -/
def scenF2 : Option MyBytes × LruCache := scenF1.2.get "key2"

/-- Scenario step: final get "key3". -/
def scenF3 : Option MyBytes × LruCache := scenF2.2.get "key3"

/-! ### Lemmas about the association-list store -/

theorem mapKeys_nil : mapKeys [] = [] := rfl

theorem mapKeys_cons (k : String) (v : MyBytes) (m : List (String × MyBytes)) :
    mapKeys ((k, v) :: m) = k :: mapKeys m := rfl

theorem mapKeys_append (m m' : List (String × MyBytes)) :
    mapKeys (m ++ m') = mapKeys m ++ mapKeys m' := List.map_append _ _ _

theorem mapKeys_mapInsert (m : List (String × MyBytes)) (k : String) (v : MyBytes) :
    mapKeys (mapInsert m k v) =
      if k ∈ mapKeys m then mapKeys m else mapKeys m ++ [k] := by
  induction m with
  | nil => simp [mapInsert, mapKeys]
  | cons p rest ih =>
    obtain ⟨k', v'⟩ := p
    by_cases h : k' = k
    · subst h
      simp [mapInsert, mapKeys_cons]
    · simp only [mapInsert, if_neg h, mapKeys_cons, ih, List.mem_cons]
      have hne : ¬ k = k' := fun hh => h hh.symm
      by_cases hmem : k ∈ mapKeys rest
      · simp [hmem, hne]
      · simp [hmem, hne]

theorem mapInsert_of_not_mem (m : List (String × MyBytes)) (k : String) (v : MyBytes)
    (h : k ∉ mapKeys m) : mapInsert m k v = m ++ [(k, v)] := by
  induction m with
  | nil => simp [mapInsert]
  | cons p rest ih =>
    obtain ⟨k', v'⟩ := p
    simp only [mapKeys_cons, List.mem_cons] at h
    push_neg at h
    have hne : ¬ k' = k := fun hh => h.1 hh.symm
    simp only [mapInsert, if_neg hne, List.cons_append]
    rw [ih h.2]

theorem mapKeys_mapRemove (m : List (String × MyBytes)) (k : String) :
    mapKeys (mapRemove m k) = (mapKeys m).erase k := by
  induction m with
  | nil => simp [mapRemove, mapKeys]
  | cons p rest ih =>
    obtain ⟨k', v'⟩ := p
    by_cases h : k' = k
    · subst h
      simp [mapRemove, mapKeys_cons, List.erase_cons_head]
    · simp only [mapRemove, if_neg h, mapKeys_cons, ih]
      rw [List.erase_cons_tail]
      simp [h]

theorem mapGet_isSome_iff (m : List (String × MyBytes)) (k : String) :
    (mapGet m k).isSome = true ↔ k ∈ mapKeys m := by
  induction m with
  | nil => simp [mapGet, mapKeys]
  | cons p rest ih =>
    obtain ⟨k', v'⟩ := p
    by_cases h : k' = k
    · subst h
      simp [mapGet, mapKeys_cons]
    · simp only [mapGet, if_neg h, mapKeys_cons, List.mem_cons, ih]
      constructor
      · exact Or.inr
      · rintro (hh | hh)
        · exact absurd hh.symm h
        · exact hh

theorem mapGet_eq_none_of_not_mem (m : List (String × MyBytes)) (k : String)
    (h : k ∉ mapKeys m) : mapGet m k = none := by
  cases hg : mapGet m k with
  | none => rfl
  | some v =>
    exact absurd ((mapGet_isSome_iff m k).mp (by rw [hg]; rfl)) h

theorem mapKeys_pairsOf (ks : List String) (vals : String → MyBytes) :
    mapKeys (pairsOf ks vals) = ks := by
  induction ks with
  | nil => rfl
  | cons k rest ih => simp [pairsOf, mapKeys_cons] at ih ⊢; exact ih

/-! ### Round-trip facts for the codecs -/

/-- String round-trip: decoding the bytes of a Rust string succeeds and
returns the string, since the buffer is valid UTF-8 by construction. -/
theorem string_roundtrip (s : RustString) :
    RustString.try_from_bytes s.val = Result.ok s := by
  unfold RustString.try_from_bytes
  rw [dif_pos s.property]

/-- i32 round-trip: `from_be_bytes (to_be_bytes i)` returns `i` for every
representable 32-bit integer. -/
theorem i32_roundtrip (i : I32) :
    RustI32.try_from_bytes (i32ToBeBytes i.val) = some (Result.ok i) := by
  obtain ⟨v, hlo, hhi⟩ := i
  simp only [i32ToBeBytes, RustI32.try_from_bytes]
  have hveq : i32OfBits
      ((v % 4294967296).toNat / 16777216 % 256 % 256 * 16777216 +
        (v % 4294967296).toNat / 65536 % 256 % 256 * 65536 +
        (v % 4294967296).toNat / 256 % 256 % 256 * 256 +
        (v % 4294967296).toNat % 256 % 256) (by omega) =
      ⟨v, hlo, hhi⟩ := by
    unfold i32OfBits
    split
    · exact Subtype.ext (by simp only []; omega)
    · exact Subtype.ext (by simp only []; omega)
  rw [hveq]

/-! ### Invariant preservation -/

/-- With capacity at least one, `set` cannot reach the empty-list eviction
panic, and it preserves the synchronization invariant. -/
theorem setWithEnc_ok_inv (c : LruCache) (k : String) (v : MyBytes)
    (hcap : 1 ≤ c.capacity) (hinv : CacheInv c) :
    ∃ c', c.setWithEnc k (Result.ok v) = (some (), c') ∧ CacheInv c' ∧
      c'.capacity = c.capacity := by
  obtain ⟨hnd, hsub, hlen⟩ := hinv
  by_cases hfull : c.list.length = c.capacity
  · cases hL : c.list with
    | nil =>
      rw [hL] at hfull
      simp only [List.length_nil] at hfull
      omega
    | cons oldest rest =>
      refine ⟨{ c with map := mapInsert (mapRemove c.map oldest) k v,
                       list := rest ++ [k] }, ?_, ?_, rfl⟩
      · unfold LruCache.setWithEnc
        rw [if_pos hfull, hL]
      · have hndR : (mapKeys (mapRemove c.map oldest)).Nodup := by
          rw [mapKeys_mapRemove]; exact hnd.erase oldest
        have hsubR : ∀ x, x ∈ mapKeys (mapRemove c.map oldest) → x ∈ rest := by
          intro x hx
          rw [mapKeys_mapRemove, hnd.mem_erase_iff] at hx
          have := hsub x hx.2
          rw [hL] at this
          rcases List.mem_cons.mp this with h | h
          · exact absurd h hx.1
          · exact h
        refine ⟨?_, ?_, ?_⟩
        · rw [mapKeys_mapInsert]
          by_cases hk : k ∈ mapKeys (mapRemove c.map oldest)
          · rw [if_pos hk]; exact hndR
          · rw [if_neg hk]
            refine List.Nodup.append hndR (List.nodup_singleton k) ?_
            intro x hx hx'
            rw [List.mem_singleton] at hx'
            exact hk (hx' ▸ hx)
        · intro x hx
          rw [mapKeys_mapInsert] at hx
          by_cases hk : k ∈ mapKeys (mapRemove c.map oldest)
          · rw [if_pos hk] at hx
            exact List.mem_append_left _ (hsubR x hx)
          · rw [if_neg hk] at hx
            rcases List.mem_append.mp hx with h | h
            · exact List.mem_append_left _ (hsubR x h)
            · exact List.mem_append_right _ h
        · have hrl : rest.length + 1 = c.capacity := by
            rw [← hfull, hL, List.length_cons]
          simp only [List.length_append, List.length_singleton]
          omega
  · refine ⟨{ c with map := mapInsert c.map k v, list := c.list ++ [k] }, ?_, ?_, rfl⟩
    · unfold LruCache.setWithEnc
      rw [if_neg hfull]
    · refine ⟨?_, ?_, ?_⟩
      · rw [mapKeys_mapInsert]
        by_cases hk : k ∈ mapKeys c.map
        · rw [if_pos hk]; exact hnd
        · rw [if_neg hk]
          refine List.Nodup.append hnd (List.nodup_singleton k) ?_
          intro x hx hx'
          rw [List.mem_singleton] at hx'
          exact hk (hx' ▸ hx)
      · intro x hx
        rw [mapKeys_mapInsert] at hx
        by_cases hk : k ∈ mapKeys c.map
        · rw [if_pos hk] at hx
          exact List.mem_append_left _ (hsub x hx)
        · rw [if_neg hk] at hx
          rcases List.mem_append.mp hx with h | h
          · exact List.mem_append_left _ (hsub x h)
          · exact List.mem_append_right _ h
      · simp only [List.length_append, List.length_singleton]
        omega

/-- A `get` (via `refresh`) preserves the invariant and the capacity. -/
theorem get_inv (c : LruCache) (k : String) (hinv : CacheInv c) :
    CacheInv (c.get k).2 ∧ (c.get k).2.capacity = c.capacity := by
  obtain ⟨hnd, hsub, hlen⟩ := hinv
  unfold LruCache.get
  cases hg : mapGet c.map k with
  | none => exact ⟨⟨hnd, hsub, hlen⟩, rfl⟩
  | some v =>
    unfold LruCache.refresh
    by_cases hmem : k ∈ c.list
    · rw [if_pos hmem]
      refine ⟨⟨hnd, ?_, ?_⟩, rfl⟩
      · intro x hx
        by_cases hxk : x = k
        · exact List.mem_append_right _ (by simp [hxk])
        · refine List.mem_append_left _ ?_
          rw [List.mem_erase_of_ne hxk]
          exact hsub x hx
      · have hpos : 0 < c.list.length := List.length_pos_of_mem hmem
        simp only [List.length_append, List.length_singleton]
        rw [List.length_erase_of_mem hmem]
        omega
    · rw [if_neg hmem]
      exact ⟨⟨hnd, hsub, hlen⟩, rfl⟩

/-- Running any operation sequence from an invariant state with positive
capacity never panics and lands in an invariant state. -/
theorem runOps_inv (ops : List CacheOp) : ∀ c : LruCache, 1 ≤ c.capacity →
    CacheInv c →
    ∃ c', runOps c ops = some c' ∧ CacheInv c' ∧ c'.capacity = c.capacity := by
  induction ops with
  | nil => exact fun c _ hi => ⟨c, rfl, hi, rfl⟩
  | cons op rest ih =>
    intro c hcap hinv
    cases op with
    | set k v =>
      obtain ⟨c', hset, hinv', hcap'⟩ := setWithEnc_ok_inv c k v hcap hinv
      obtain ⟨c'', hrun, hinv'', hcap''⟩ := ih c' (hcap' ▸ hcap) hinv'
      refine ⟨c'', ?_, hinv'', by rw [hcap'', hcap']⟩
      simp only [runOps, hset]
      exact hrun
    | get k =>
      obtain ⟨hinv', hcap'⟩ := get_inv c k hinv
      obtain ⟨c'', hrun, hinv'', hcap''⟩ := ih _ (hcap' ▸ hcap) hinv'
      refine ⟨c'', ?_, hinv'', by rw [hcap'', hcap']⟩
      simp only [runOps]
      exact hrun

/-- A fresh cache satisfies the invariant. -/
theorem new_inv (cap : Nat) : CacheInv (LruCache.new cap) := by
  refine ⟨List.nodup_nil, ?_, ?_⟩ <;> simp [LruCache.new, mapKeys]

/-! ### Exact states along distinct-key set sequences -/

theorem pairsOf_append (a b : List String) (vals : String → MyBytes) :
    pairsOf (a ++ b) vals = pairsOf a vals ++ pairsOf b vals :=
  List.map_append _ _ _

theorem setAll_append (ps qs : List (String × MyBytes)) : ∀ c : LruCache,
    setAll c (ps ++ qs) = (setAll c ps).bind (fun c' => setAll c' qs) := by
  induction ps with
  | nil => intro c; simp [setAll]
  | cons p rest ih =>
    intro c
    obtain ⟨k, v⟩ := p
    simp only [List.cons_append, setAll]
    cases hset : c.setWithEnc k (Result.ok v) with
    | mk fst snd =>
      cases fst with
      | none => simp
      | some u => simp [ih]

/-- Setting a list of fresh, pairwise distinct keys that fits in the remaining
capacity: no eviction happens, the store gains exactly those pairs, and the
recency list gains exactly those keys, in order. -/
theorem setAll_fresh (vals : String → MyBytes) :
    ∀ (ks : List String) (c : LruCache),
      c.list = mapKeys c.map →
      (mapKeys c.map ++ ks).Nodup →
      c.list.length + ks.length ≤ c.capacity →
      setAll c (pairsOf ks vals) =
        some ⟨c.capacity, c.map ++ pairsOf ks vals, c.list ++ ks⟩ := by
  intro ks
  induction ks with
  | nil =>
    intro c _ _ _
    simp [pairsOf, setAll]
  | cons k rest ih =>
    intro c h1 h2 h3
    have hne : ¬ c.list.length = c.capacity := by
      simp only [List.length_cons] at h3
      omega
    have hknotin : k ∉ mapKeys c.map := by
      have hdisj := (List.nodup_append.mp h2).2.2
      exact fun hk => hdisj hk (List.mem_cons_self k rest)
    have hset : c.setWithEnc k (Result.ok (vals k)) =
        (some (), { c with map := mapInsert c.map k (vals k),
                           list := c.list ++ [k] }) := by
      unfold LruCache.setWithEnc
      rw [if_neg hne]
    have hins : mapInsert c.map k (vals k) = c.map ++ [(k, vals k)] :=
      mapInsert_of_not_mem _ _ _ hknotin
    simp only [pairsOf, List.map_cons, setAll, hset]
    have ihres := ih { c with map := mapInsert c.map k (vals k),
                              list := c.list ++ [k] }
      (by simp only [hins, mapKeys_append, h1]; rfl)
      (by simp only [hins, mapKeys_append, List.append_assoc]
          simpa [mapKeys] using h2)
      (by simp only [List.length_append, List.length_singleton]
          simp only [List.length_cons] at h3
          omega)
    simp only [pairsOf] at ihres
    rw [ihres]
    simp [hins, List.append_assoc]

/-- Filling a fresh cache of capacity `N` with the `N` distinct keys
`k0 :: mid` and then setting one more fresh key `kL` evicts exactly `k0`. -/
theorem setAll_snoc_evict (vals : String → MyBytes) (N : Nat) (k0 kL : String)
    (mid : List String) (hnd : (k0 :: (mid ++ [kL])).Nodup)
    (hlen : mid.length + 1 = N) :
    setAll (LruCache.new N) (pairsOf (k0 :: (mid ++ [kL])) vals) =
      some ⟨N, pairsOf (mid ++ [kL]) vals, mid ++ [kL]⟩ := by
  have hnd2 : ((k0 :: mid) ++ [kL]).Nodup := by
    simpa using hnd
  have hndhead : (k0 :: mid).Nodup := (List.nodup_append.mp hnd2).1
  have hkL : kL ∉ mid := by
    intro hmem
    exact (List.nodup_append.mp hnd2).2.2 (List.mem_cons_of_mem k0 hmem)
      (List.mem_singleton.mpr rfl)
  have hfresh := setAll_fresh vals (k0 :: mid) (LruCache.new N) rfl
    (by simpa [LruCache.new, mapKeys] using hndhead)
    (by simp [LruCache.new, List.length_cons]; omega)
  have hks : k0 :: (mid ++ [kL]) = (k0 :: mid) ++ [kL] := rfl
  rw [hks, pairsOf_append, setAll_append, hfresh]
  simp only [Option.some_bind]
  simp only [LruCache.new, List.nil_append]
  have hins : mapInsert (pairsOf mid vals) kL (vals kL) =
      pairsOf mid vals ++ [(kL, vals kL)] := by
    refine mapInsert_of_not_mem _ _ _ ?_
    rw [mapKeys_pairsOf]
    exact hkL
  have hremove : mapRemove ((k0, vals k0) :: pairsOf mid vals) k0 = pairsOf mid vals := by
    simp [mapRemove]
  have hstep : (LruCache.mk N ((k0, vals k0) :: pairsOf mid vals) (k0 :: mid)).setWithEnc
      kL (Result.ok (vals kL)) =
      (some (), LruCache.mk N (pairsOf (mid ++ [kL]) vals) (mid ++ [kL])) := by
    unfold LruCache.setWithEnc
    rw [if_pos (by simp [List.length_cons, hlen])]
    show (some (), LruCache.mk N
        (mapInsert (mapRemove ((k0, vals k0) :: pairsOf mid vals) k0) kL (vals kL))
        (mid ++ [kL])) = _
    rw [hremove, hins, pairsOf_append]
    simp [pairsOf]
  simp only [pairsOf, List.map_cons, List.map_nil, setAll]
  simp only [pairsOf, List.map_cons] at hstep
  rw [hstep]

/-- After setting a prefix (of length between 1 and the capacity) of a
distinct-key sequence on a fresh cache, the first key is present. -/
theorem keyPresentAfter_take (vals : String → MyBytes) (N : Nat) (k0 : String)
    (tail : List String) (hnd : (k0 :: tail).Nodup) (j : Nat)
    (hj1 : 1 ≤ j) (hjN : j ≤ N) :
    keyPresentAfter N (pairsOf ((k0 :: tail).take j) vals) k0 = true := by
  obtain ⟨jj, rfl⟩ : ∃ jj, j = jj + 1 := ⟨j - 1, by omega⟩
  have htake : (k0 :: tail).take (jj + 1) = k0 :: tail.take jj :=
    List.take_succ_cons
  rw [htake]
  have hsubl : List.Sublist (k0 :: tail.take jj) (k0 :: tail) :=
    List.Sublist.cons₂ k0 (List.take_sublist jj tail)
  have hndP : (k0 :: tail.take jj).Nodup := List.Nodup.sublist hsubl hnd
  have hfresh := setAll_fresh vals (k0 :: tail.take jj) (LruCache.new N) rfl
    (by simpa [LruCache.new, mapKeys] using hndP)
    (by
      have := List.length_take_le jj tail
      simp only [LruCache.new, List.length_nil, List.length_cons]
      omega)
  unfold keyPresentAfter
  rw [hfresh]
  simp only [LruCache.new, List.nil_append]
  rw [mapGet_isSome_iff]
  rw [mapKeys_pairsOf]
  exact List.mem_cons_self k0 (tail.take jj)

/-! ### The claims -/

/-- C1: Capacity invariant: for every cache constructed with capacity at least
1 and every sequence of `set` operations with arbitrary interleaved `get`s,
no operation panics and the number of live keys in the store never exceeds
the capacity (every prefix of a sequence is itself a sequence, so this bounds
the state after every operation). -/
theorem lru_capacity_invariant (cap : Nat) (hcap : 1 ≤ cap) (ops : List CacheOp) :
    ∃ c, runOps (LruCache.new cap) ops = some c ∧ c.map.length ≤ cap := by
  obtain ⟨c, hrun, ⟨hnd, hsub, hlen⟩, hcapeq⟩ :=
    runOps_inv ops (LruCache.new cap) hcap (new_inv cap)
  refine ⟨c, hrun, ?_⟩
  have hsubp : List.Subperm (mapKeys c.map) c.list :=
    List.Nodup.subperm hnd (fun x hx => hsub x hx)
  have h1 : (mapKeys c.map).length ≤ c.list.length := hsubp.length_le
  have h2 : (mapKeys c.map).length = c.map.length := List.length_map _ _
  have h3 : c.capacity = cap := hcapeq
  omega

/-- Witness for the capacity invariant: capacity 2 and a concrete sequence
with an interleaved get and three distinct set keys. -/
theorem lru_capacity_invariant_witness :
    ∃ c, runOps (LruCache.new 2)
      [CacheOp.set "a" [1], CacheOp.get "a", CacheOp.set "b" [2],
       CacheOp.set "c" [3]] = some c ∧ c.map.length ≤ 2 :=
  lru_capacity_invariant 2 (by decide)
    [CacheOp.set "a" [1], CacheOp.get "a", CacheOp.set "b" [2],
     CacheOp.set "c" [3]]

/-- C2: the round-trip law fails on the code for the composite Person type:
encoding Person { name: "John", age: 20 } yields the eight bytes below, but
decoding those bytes panics — the age decoder receives only the single final
byte and unwraps the failed slice-to-4-byte-array conversion — so
`try_from_bytes (try_into_bytes v) = Ok v` does not hold for every supported
type.  (It does hold for strings and i32, `string_roundtrip` and
`i32_roundtrip` above.) -/
theorem person_roundtrip_decode_panics :
    Person.try_into_bytes john = Result.ok [74, 111, 104, 110, 0, 0, 0, 20] ∧
    Person.try_from_bytes [74, 111, 104, 110, 0, 0, 0, 20] = none := by
  exact ⟨by decide, by decide⟩

/-- C3: the tracker/store synchronization invariant fails on the code:
setting the same key twice (capacity 2) leaves the recency order
["a", "a"] — a duplicate — and a further set of "b" then evicts the store
entry of "a" while "a" is still in the order, so the order and the store key
set disagree. -/
theorem tracker_store_desync_on_duplicate_set :
    (∃ c, runOps (LruCache.new 2)
        [CacheOp.set "a" [1], CacheOp.set "a" [2]] = some c ∧
      c.list = ["a", "a"] ∧ ¬ c.list.Nodup) ∧
    (∃ c, runOps (LruCache.new 2)
        [CacheOp.set "a" [1], CacheOp.set "a" [2], CacheOp.set "b" [3]] = some c ∧
      "a" ∈ c.list ∧ mapGet c.map "a" = none) := by
  constructor
  · exact ⟨⟨2, [("a", [2])], ["a", "a"]⟩, by decide, by decide, by decide⟩
  · exact ⟨⟨2, [("b", [3])], ["a", "b"]⟩, by decide, by decide, by decide⟩

/-- C4: set on an existing key is not update-in-place in the code: with
capacity 2 holding "k1" and "k2", a set of the already-present "k2" evicts
"k1" — a different key — and pushes a second tracker entry for "k2".  The new
value is stored, but the claimed no-eviction/no-double-insert behavior fails. -/
theorem set_existing_key_evicts_other_key :
    ∃ c, runOps (LruCache.new 2)
        [CacheOp.set "k1" [1], CacheOp.set "k2" [2], CacheOp.set "k2" [3]] = some c ∧
      mapGet c.map "k1" = none ∧ c.list = ["k2", "k2"] ∧
      mapGet c.map "k2" = some [3] :=
  ⟨⟨2, [("k2", [3])], ["k2", "k2"]⟩, by decide, by decide, by decide, by decide⟩

/-- C5: decoding as i32 any byte vector whose length is not 4 panics (the
unwrap of the failed slice-to-array conversion) instead of returning a
ConversionFailed error. -/
theorem i32_decode_wrong_width_panics (bs : List Nat) (h : bs.length ≠ 4) :
    RustI32.try_from_bytes bs = none := by
  match bs with
  | [] => rfl
  | [b0] => rfl
  | [b0, b1] => rfl
  | [b0, b1, b2] => rfl
  | [b0, b1, b2, b3] => exact absurd rfl h
  | b0 :: b1 :: b2 :: b3 :: b4 :: rest => rfl

/-- Witness: the one-byte vector [0] has length 1, not 4, and its i32 decode
is a panic. -/
theorem i32_decode_wrong_width_panics_witness :
    ([(0 : Nat)].length ≠ 4) ∧ RustI32.try_from_bytes [0] = none :=
  ⟨by decide, i32_decode_wrong_width_panics [0] (by decide)⟩

/-- C6: after storing the raw bytes [0xFF, 0xFE] under "key", get returns the
raw bytes wrapped in `some` — its result type has no error constructor and no
decoding happens inside get — even though decoding those bytes as a string
fails with ConversionFailed.  The conversion failure therefore never surfaces
through get as a distinguishable error value. -/
theorem get_has_no_decode_error_channel :
    ∃ c, runOps (LruCache.new 2) [CacheOp.set "key" [255, 254]] = some c ∧
      (c.get "key").1 = some [255, 254] ∧
      RustString.try_from_bytes [255, 254] =
        Result.err (CacheError.ConversionFailed "invalid utf-8 sequence") :=
  ⟨⟨2, [("key", [255, 254])], ["key"]⟩, by decide, by decide, by decide⟩

/-- C7: Eviction order: with capacity N (= mid.length + 1 >= 1) and the N+1
pairwise distinct keys k0 :: mid ++ [kL] set in order with no intervening get,
the first key k0 is present after each of the first j <= N sets, absent after
the (N+1)th set, and every other key is present after the (N+1)th set. -/
theorem eviction_order_first_key (N : Nat) (k0 kL : String) (mid : List String)
    (vals : String → MyBytes) (hnd : (k0 :: (mid ++ [kL])).Nodup)
    (hlen : mid.length + 1 = N) (j : Nat) (hj1 : 1 ≤ j) (hjN : j ≤ N)
    (k : String) (hk : k ∈ mid ++ [kL]) :
    keyPresentAfter N (pairsOf ((k0 :: (mid ++ [kL])).take j) vals) k0 = true ∧
    keyPresentAfter N (pairsOf (k0 :: (mid ++ [kL])) vals) k0 = false ∧
    keyPresentAfter N (pairsOf (k0 :: (mid ++ [kL])) vals) k = true := by
  have hfull := setAll_snoc_evict vals N k0 kL mid hnd hlen
  have hk0notin : k0 ∉ mid ++ [kL] := (List.nodup_cons.mp hnd).1
  refine ⟨keyPresentAfter_take vals N k0 (mid ++ [kL]) hnd j hj1 hjN, ?_, ?_⟩
  · unfold keyPresentAfter
    rw [hfull]
    show (mapGet (pairsOf (mid ++ [kL]) vals) k0).isSome = false
    rw [mapGet_eq_none_of_not_mem _ _ (by rw [mapKeys_pairsOf]; exact hk0notin)]
    rfl
  · unfold keyPresentAfter
    rw [hfull]
    show (mapGet (pairsOf (mid ++ [kL]) vals) k).isSome = true
    rw [mapGet_isSome_iff, mapKeys_pairsOf]
    exact hk

/-- Witness for the eviction-order law: capacity 1, keys "a" then "b". -/
theorem eviction_order_first_key_witness :
    keyPresentAfter 1 (pairsOf ((["a", "b"]).take 1) (fun _ => [7])) "a" = true ∧
    keyPresentAfter 1 (pairsOf ["a", "b"] (fun _ => [7])) "a" = false ∧
    keyPresentAfter 1 (pairsOf ["a", "b"] (fun _ => [7])) "b" = true :=
  eviction_order_first_key 1 "a" "b" [] (fun _ => [7]) (by decide) rfl 1
    (by decide) (by decide) "b" (by decide)

/-- C8: the capacity-2 scenario: after set("key1","value1"),
set("key2","value2"), get("key2") returns the bytes of "value2" and
get("key1") the bytes of "value1" (both decoding back to the strings); the
following set("key3","value3") evicts "key2", the least recently used after
the two gets, so get("key1") still returns "value1", get("key2") returns
none, and get("key3") returns "value3". -/
theorem recency_promotion_scenario :
    scen1.1 = some () ∧ scen2.1 = some () ∧
    scenG2.1 = some value2 ∧ scenG1.1 = some value1 ∧
    scen3.1 = some () ∧
    scenF1.1 = some value1 ∧ scenF2.1 = none ∧ scenF3.1 = some value3 ∧
    RustString.try_from_bytes value2 = Result.ok strValue2 ∧
    RustString.try_from_bytes value1 = Result.ok strValue1 ∧
    RustString.try_from_bytes value3 = Result.ok strValue3 := by
  decide

/-- C9: set is not atomic with respect to encoding failure and returns no
error value: on a full capacity-1 cache holding "k1", a set of "k2" whose
encoding fails panics (`none`: no Result is returned at all — the source's
set returns unit), and the `&mut` cache at the panic point has already
evicted "k1" and pushed "k2": a state different from the initial one.  The
initial state is reachable by an ordinary set on a fresh cache. -/
theorem set_encode_failure_panics_after_mutation :
    (LruCache.mk 1 [("k1", [1])] ["k1"]).setWithEnc "k2"
        (Result.err (CacheError.ConversionFailed "encode failed")) =
      (none, LruCache.mk 1 [] ["k2"]) ∧
    LruCache.mk 1 [] ["k2"] ≠ LruCache.mk 1 [("k1", [1])] ["k1"] ∧
    (∃ c, runOps (LruCache.new 1) [CacheOp.set "k1" [1]] = some c ∧
      c = LruCache.mk 1 [("k1", [1])] ["k1"]) := by
  refine ⟨by decide, by decide, ⟨⟨1, [("k1", [1])], ["k1"]⟩, by decide, rfl⟩⟩

/-- C10: new(0) succeeds and yields a capacity-0 cache; on such a cache the
very first set reaches the eviction branch with an empty recency list and
panics (Vec::remove(0) on the empty vector), leaving the state unchanged;
with capacity at least 1 a set never panics. -/
theorem capacity_zero_set_panics (key : String) (v : MyBytes) (c : LruCache)
    (hc : 1 ≤ c.capacity) :
    (LruCache.new 0).capacity = 0 ∧
    ((LruCache.new 0).setWithEnc key (Result.ok v)).1 = none ∧
    ((LruCache.new 0).setWithEnc key (Result.ok v)).2 = LruCache.new 0 ∧
    (c.setWithEnc key (Result.ok v)).1 = some () := by
  refine ⟨rfl, rfl, rfl, ?_⟩
  unfold LruCache.setWithEnc
  by_cases hfull : c.list.length = c.capacity
  · rw [if_pos hfull]
    cases hL : c.list with
    | nil =>
      exfalso
      rw [hL] at hfull
      simp only [List.length_nil] at hfull
      omega
    | cons o r => rfl
  · rw [if_neg hfull]

/-- Witness: the first set on a fresh capacity-0 cache panics with the state
unchanged, while a set on a fresh capacity-1 cache returns normally. -/
theorem capacity_zero_set_panics_witness :
    (LruCache.new 0).capacity = 0 ∧
    ((LruCache.new 0).setWithEnc "a" (Result.ok [1])).1 = none ∧
    ((LruCache.new 0).setWithEnc "a" (Result.ok [1])).2 = LruCache.new 0 ∧
    ((LruCache.new 1).setWithEnc "a" (Result.ok [1])).1 = some () :=
  capacity_zero_set_panics "a" [1] (LruCache.new 1) (by decide)
